import Mathlib

/-!
# Constant-time byte comparison

A shallow embedding of `Cryptography_constant_time_bytes_eq` from
`cryptography/hazmat/primitives/src/constant_time.c`, followed by the
properties its specification states.

Modelling choices.

* A byte of a caller buffer is a `uint8_t`, a natural number below `2 ^ 8`.
  Arithmetic is done on `Nat` (C promotes `uint8_t` operands to `int`), and
  every store into the `uint8_t` variable `mismatch` reduces modulo `2 ^ 8`.
* A pointer argument is the list of bytes readable through it.  A read
  `a[i]` is bounds-checked: reading past the end of the list is undefined
  behaviour in C, and makes the embedding return `none`.
* Lengths and the index `i` are natural numbers.  The index is only
  incremented while `i < len_a`, and `len_a` is a `size_t`, so `i + 1` never
  exceeds the largest `size_t` value and the increment never wraps
  (`size_t_increment_exact`).
* The function is instrumented with the trace of what an observer of control
  flow and memory addresses sees: the outcome of every branch and loop test,
  and the index of every read.
* The definitions whose names start with `spec_` are not taken from the code:
  they write out the five-step algorithm of the specification, without any
  reduction modulo `2 ^ 8`, for comparison with the code.
-/

namespace ConstantTime

/-- A `uint8_t` value, as stored in the caller buffers. -/
abbrev uint8_t := Fin 256

/-- One observable step of an execution: the outcome of a conditional, or the
index of a memory read.  Byte values never appear in an event. -/
inductive Event where
  /-- Line 18, `if (len_a != len_b)`: whether the early return is taken. -/
  | len_check (differ : Bool)
  /-- Line 21, the loop test `i < len_a`: whether the body is entered. -/
  | loop_test (enter : Bool)
  /-- Line 22, the read `a[i]`. -/
  | read_a (i : Nat)
  /-- Line 22, the read `b[i]`. -/
  | read_b (i : Nat)
deriving DecidableEq, Repr

/-- What a call produces: the returned byte (`none` when the execution read
outside a buffer) and the trace of observable steps. -/
structure Outcome where
  /-- The returned `uint8_t`, or `none` after an out-of-range read. -/
  ret : Option Nat
  /-- The observable steps, in execution order. -/
  trace : List Event
deriving DecidableEq, Repr

/-- Lines 21-23: the loop `for (; i < len_a; i++) mismatch |= a[i] ^ b[i];`
started at index `i` with accumulator `mismatch`.  Returns the accumulator
after the loop (`none` after an out-of-range read) and the trace. -/
def mismatch_loop (a b : List uint8_t) (len_a : Nat) (i mismatch : Nat) :
    Option Nat × List Event :=
  if i < len_a then
    match a[i]? with
    | none => (none, [Event.loop_test true, Event.read_a i])
    | some x =>
      match b[i]? with
      | none => (none, [Event.loop_test true, Event.read_a i, Event.read_b i])
      | some y =>
        let r := mismatch_loop a b len_a (i + 1) ((mismatch ||| (x.val ^^^ y.val)) % 256)
        (r.1, Event.loop_test true :: Event.read_a i :: Event.read_b i :: r.2)
  else
    (some mismatch, [Event.loop_test false])
termination_by len_a - i

/-- Lines 26-28: copy any set bit of `mismatch` down to the lowest bit. -/
def collapse (mismatch : Nat) : Nat :=
  let mismatch := (mismatch ||| (mismatch >>> 4)) % 256
  let mismatch := (mismatch ||| (mismatch >>> 2)) % 256
  let mismatch := (mismatch ||| (mismatch >>> 1)) % 256
  mismatch

/-- Line 30: `(mismatch & 1) == 0`, an `int` that is 0 or 1, converted to the
`uint8_t` return type. -/
def low_bit_clear (mismatch : Nat) : Nat :=
  (if mismatch &&& 1 = 0 then 1 else 0) % 256

/-- The function `Cryptography_constant_time_bytes_eq` (lines 14-31). -/
def Cryptography_constant_time_bytes_eq (a : List uint8_t) (len_a : Nat)
    (b : List uint8_t) (len_b : Nat) : Outcome :=
  if len_a ≠ len_b then
    ⟨some 0, [Event.len_check true]⟩
  else
    match mismatch_loop a b len_a 0 0 with
    | (none, tr) => ⟨none, Event.len_check false :: tr⟩
    | (some mismatch, tr) =>
      ⟨some (low_bit_clear (collapse mismatch)), Event.len_check false :: tr⟩

/-- The trace of a call on two lengths, written without reference to any
buffer: the length check, and for equal lengths one loop round per index
`0, 1, ..., n - 1` in increasing order. -/
def length_trace (len_a len_b : Nat) : List Event :=
  if len_a ≠ len_b then [Event.len_check true]
  else Event.len_check false ::
    ((List.range len_a).flatMap
        (fun i => [Event.loop_test true, Event.read_a i, Event.read_b i])
      ++ [Event.loop_test false])

/-- The indices at which a trace reads buffer `a`, in execution order.  The
loop body of line 22 reads `a[i]` once each time it runs, so this is the list
of indices for which the body ran. -/
def reads_a : List Event → List Nat
  | [] => []
  | Event.read_a i :: t => i :: reads_a t
  | _ :: t => reads_a t

/-- Step 3 of the algorithm of the specification, for one index:
`m := m | (a[i] XOR b[i])`, undefined when `i` is outside a sequence. -/
def spec_step (a b : List uint8_t) (m i : Nat) : Option Nat :=
  match a[i]?, b[i]? with
  | some x, some y => some (m ||| (x.val ^^^ y.val))
  | _, _ => none

/-- Steps 2 and 3 of the algorithm of the specification: the accumulator
starts at 0 and takes the step for each index of `[0, n)` in turn.  Its value
is the bitwise OR of `a[j] XOR b[j]` over `j < n`. -/
def spec_accumulate (a b : List uint8_t) (n : Nat) : Option Nat :=
  (List.range n).foldlM (spec_step a b) 0

/-- Step 4 of the algorithm of the specification: `m := m | (m >> 4)`,
`m := m | (m >> 2)`, `m := m | (m >> 1)`. -/
def spec_collapse (m : Nat) : Nat :=
  let m := m ||| (m >>> 4)
  let m := m ||| (m >>> 2)
  let m := m ||| (m >>> 1)
  m

/-- The five-step algorithm of section 4.1 of the specification, written from
its words: unequal lengths yield 0; otherwise accumulate, collapse, and
return `(m & 1) XOR 1`. -/
def spec_constant_time_bytes_eq (a : List uint8_t) (len_a : Nat)
    (b : List uint8_t) (len_b : Nat) : Option Nat :=
  if len_a ≠ len_b then some 0
  else (spec_accumulate a b len_a).map (fun m => (spec_collapse m &&& 1) ^^^ 1)

/-! ## Lemmas on the loop and the final collapse -/

/-- The index increment of line 21 never wraps: it runs only when
`i < len_a`, and `len_a` fits the `w`-bit type `size_t`. -/
theorem size_t_increment_exact (w i len_a : Nat) (h : i < len_a) (hl : len_a < 2 ^ w) :
    (i + 1) % 2 ^ w = i + 1 :=
  Nat.mod_eq_of_lt (by omega)

/-- Leaving the loop: the test `i < len_a` fails. -/
theorem mismatch_loop_exit (a b : List uint8_t) (len_a i m : Nat) (h : ¬ i < len_a) :
    mismatch_loop a b len_a i m = (some m, [Event.loop_test false]) := by
  rw [mismatch_loop, if_neg h]

/-- One round of the loop when both reads are in range. -/
theorem mismatch_loop_next (a b : List uint8_t) (len_a i m : Nat) (h : i < len_a)
    (ha : i < a.length) (hb : i < b.length) :
    mismatch_loop a b len_a i m =
      ((mismatch_loop a b len_a (i + 1) ((m ||| (a[i].val ^^^ b[i].val)) % 256)).1,
        Event.loop_test true :: Event.read_a i :: Event.read_b i ::
          (mismatch_loop a b len_a (i + 1) ((m ||| (a[i].val ^^^ b[i].val)) % 256)).2) := by
  rw [mismatch_loop, if_pos h]
  simp [List.getElem?_eq_getElem ha, List.getElem?_eq_getElem hb]

/-- Storing `m | (x ^ y)` into the 8-bit accumulator does not truncate. -/
theorem accumulate_exact (m : Nat) (x y : uint8_t) (hm : m < 256) :
    (m ||| (x.val ^^^ y.val)) % 256 = m ||| (x.val ^^^ y.val) := by
  apply Nat.mod_eq_of_lt
  have hx : x.val ^^^ y.val < 2 ^ 8 := Nat.xor_lt_two_pow x.isLt y.isLt
  exact Nat.or_lt_two_pow (n := 8) hm hx

/-- A bitwise OR is zero exactly when both operands are. -/
theorem lor_eq_zero (m k : Nat) : m ||| k = 0 ↔ m = 0 ∧ k = 0 := by
  constructor
  · intro h
    constructor
    · apply Nat.eq_of_testBit_eq
      intro i
      have := congrArg (fun n => n.testBit i) h
      simp only [Nat.testBit_or, Nat.zero_testBit, Bool.or_eq_false_iff] at this
      simp [this.1]
    · apply Nat.eq_of_testBit_eq
      intro i
      have := congrArg (fun n => n.testBit i) h
      simp only [Nat.testBit_or, Nat.zero_testBit, Bool.or_eq_false_iff] at this
      simp [this.2]
  · rintro ⟨rfl, rfl⟩
    rfl

/-- The loop on in-range lengths returns an 8-bit accumulator that is zero
exactly when it started at zero and the buffers agree on `[i, len_a)`. -/
theorem mismatch_loop_ret (a b : List uint8_t) (len_a : Nat)
    (hla : len_a ≤ a.length) (hlb : len_a ≤ b.length) (i m : Nat) (hm : m < 256) :
    ∃ r, (mismatch_loop a b len_a i m).1 = some r ∧ r < 256 ∧
      (r = 0 ↔ m = 0 ∧
        ∀ j (hja : j < a.length) (hjb : j < b.length), i ≤ j → j < len_a → a[j] = b[j]) := by
  induction i, m using mismatch_loop.induct a b len_a with
  | case1 i m hi hnone =>
    rw [List.getElem?_eq_none_iff] at hnone
    omega
  | case2 i m hi x _ hnone =>
    rw [List.getElem?_eq_none_iff] at hnone
    omega
  | case3 i m hi x hx y hy ih =>
    have hia : i < a.length := by omega
    have hib : i < b.length := by omega
    have hxa : a[i] = x := by
      rw [List.getElem?_eq_getElem hia] at hx
      exact Option.some.inj hx
    have hyb : b[i] = y := by
      rw [List.getElem?_eq_getElem hib] at hy
      exact Option.some.inj hy
    have hstore := accumulate_exact m x y hm
    have hm2 : (m ||| (x.val ^^^ y.val)) % 256 < 256 := Nat.mod_lt _ (by decide)
    obtain ⟨r, hr, hr256, hr0⟩ := ih hm2
    refine ⟨r, ?_, hr256, ?_⟩
    · rw [mismatch_loop_next a b len_a i m hi hia hib, hxa, hyb]
      exact hr
    · rw [hr0, hstore, lor_eq_zero, Nat.xor_eq_zero]
      constructor
      · rintro ⟨⟨hm0, hxy⟩, hrest⟩
        refine ⟨hm0, ?_⟩
        intro j hja hjb hij hjl
        rcases Nat.eq_or_lt_of_le hij with heq | hlt
        · subst heq
          rw [hxa, hyb]
          exact Fin.ext hxy
        · exact hrest j hja hjb hlt hjl
      · rintro ⟨hm0, hall⟩
        refine ⟨⟨hm0, ?_⟩, ?_⟩
        · have := hall i hia hib (Nat.le_refl i) hi
          rw [hxa, hyb] at this
          exact congrArg Fin.val this
        · intro j hja hjb hij hjl
          exact hall j hja hjb (by omega) hjl
  | case4 i m hi =>
    refine ⟨m, ?_, hm, ?_⟩
    · rw [mismatch_loop_exit a b len_a i m hi]
    · constructor
      · intro h
        exact ⟨h, fun j _ _ hij hjl => absurd (Nat.lt_of_le_of_lt hij hjl) hi⟩
      · exact fun h => h.1


/-- The trace of the loop on in-range lengths: one round per index from `i`
up to `len_a - 1`, then the failing test. -/
theorem mismatch_loop_trace (a b : List uint8_t) (len_a : Nat)
    (hla : len_a ≤ a.length) (hlb : len_a ≤ b.length) (i m : Nat) :
    (mismatch_loop a b len_a i m).2 =
      (List.range' i (len_a - i)).flatMap
          (fun k => [Event.loop_test true, Event.read_a k, Event.read_b k])
        ++ [Event.loop_test false] := by
  induction i, m using mismatch_loop.induct a b len_a with
  | case1 i m hi hnone =>
    rw [List.getElem?_eq_none_iff] at hnone
    omega
  | case2 i m hi x _ hnone =>
    rw [List.getElem?_eq_none_iff] at hnone
    omega
  | case3 i m hi x hx y hy ih =>
    have hia : i < a.length := by omega
    have hib : i < b.length := by omega
    have hxa : a[i] = x := by
      rw [List.getElem?_eq_getElem hia] at hx
      exact Option.some.inj hx
    have hyb : b[i] = y := by
      rw [List.getElem?_eq_getElem hib] at hy
      exact Option.some.inj hy
    have hsub : len_a - i = (len_a - (i + 1)) + 1 := by omega
    rw [mismatch_loop_next a b len_a i m hi hia hib, hxa, hyb, hsub, List.range'_succ]
    simp only [List.flatMap_cons, List.cons_append, List.nil_append]
    rw [ih]
  | case4 i m hi =>
    have hsub : len_a - i = 0 := by omega
    rw [mismatch_loop_exit a b len_a i m hi, hsub]
    rfl

/-- Lines 26-30 on an 8-bit accumulator: the result is 1 exactly for zero. -/
theorem collapse_low_bit (m : Nat) (hm : m < 256) :
    low_bit_clear (collapse m) = if m = 0 then 1 else 0 := by
  interval_cases m <;> rfl

/-- The call on equal lengths, once the loop result is known. -/
theorem bytes_eq_of_loop (a : List uint8_t) (len_a : Nat) (b : List uint8_t) (r : Nat)
    (tr : List Event) (h : mismatch_loop a b len_a 0 0 = (some r, tr)) :
    Cryptography_constant_time_bytes_eq a len_a b len_a =
      ⟨some (low_bit_clear (collapse r)), Event.len_check false :: tr⟩ := by
  simp [Cryptography_constant_time_bytes_eq, h]

/-- The call on unequal lengths: the early return of line 19. -/
theorem bytes_eq_of_len_ne (a : List uint8_t) (len_a : Nat) (b : List uint8_t) (len_b : Nat)
    (h : len_a ≠ len_b) :
    Cryptography_constant_time_bytes_eq a len_a b len_b = ⟨some 0, [Event.len_check true]⟩ := by
  simp [Cryptography_constant_time_bytes_eq, h]

/-- The call on equal in-range lengths: the trace is the trace of the length,
and the result is 1 when the buffers agree below `len` and 0 when not. -/
theorem bytes_eq_in_range (a : List uint8_t) (len : Nat) (b : List uint8_t)
    (hla : len ≤ a.length) (hlb : len ≤ b.length) :
    (Cryptography_constant_time_bytes_eq a len b len).trace = length_trace len len ∧
    (((Cryptography_constant_time_bytes_eq a len b len).ret = some 1 ∧
        ∀ j (hja : j < a.length) (hjb : j < b.length), j < len → a[j] = b[j]) ∨
      ((Cryptography_constant_time_bytes_eq a len b len).ret = some 0 ∧
        ¬ ∀ j (hja : j < a.length) (hjb : j < b.length), j < len → a[j] = b[j])) := by
  obtain ⟨r, hr, hr256, hr0⟩ := mismatch_loop_ret a b len hla hlb 0 0 (by decide)
  have htr := mismatch_loop_trace a b len hla hlb 0 0
  have hpair : mismatch_loop a b len 0 0 = (some r, (mismatch_loop a b len 0 0).2) :=
    Prod.ext hr rfl
  rw [bytes_eq_of_loop a len b r _ hpair, collapse_low_bit r hr256]
  constructor
  · simp only [length_trace, ne_eq, not_true_eq_false, if_false]
    rw [htr, Nat.sub_zero, List.range_eq_range']
  · by_cases h0 : r = 0
    · left
      refine ⟨by simp [h0], ?_⟩
      intro j hja hjb hjl
      exact (hr0.mp h0).2 j hja hjb (Nat.zero_le j) hjl
    · right
      refine ⟨by simp [h0], ?_⟩
      intro hall
      exact h0 (hr0.mpr ⟨rfl, fun j hja hjb _ hjl => hall j hja hjb hjl⟩)

/-- The returned byte on two sequences of one length: 1 for equal sequences,
0 for different ones. -/
theorem bytes_eq_ret_of_length_eq (x y : List uint8_t) (h : x.length = y.length) :
    (Cryptography_constant_time_bytes_eq x x.length y y.length).ret =
      some (if x = y then 1 else 0) := by
  rw [← h]
  rcases (bytes_eq_in_range x x.length y (Nat.le_refl _) (Nat.le_of_eq h)).2 with
    ⟨hret, hall⟩ | ⟨hret, hnot⟩
  · have hxy : x = y := List.ext_getElem h (fun j hja hjb => hall j hja hjb hja)
    rw [hret, if_pos hxy]
  · have hxy : x ≠ y := by
      rintro rfl
      exact hnot (fun _ _ _ _ => rfl)
    rw [hret, if_neg hxy]

/-- A read event of the trace of a length has its index below the length. -/
theorem read_mem_length_trace (n i : Nat)
    (h : Event.read_a i ∈ length_trace n n ∨ Event.read_b i ∈ length_trace n n) : i < n := by
  rcases h with h | h
  · simp [length_trace] at h
    exact h
  · simp [length_trace] at h
    exact h

/-- The trace of a length enters the loop body once per index. -/
theorem count_loop_test_length_trace (n : Nat) :
    (length_trace n n).count (Event.loop_test true) = n := by
  have key : ∀ k : Nat, ((List.range k).flatMap
      (fun i => [Event.loop_test true, Event.read_a i, Event.read_b i])).count
        (Event.loop_test true) = k := by
    intro k
    induction k with
    | zero => rfl
    | succ k ih =>
      rw [List.range_succ, List.flatMap_append, List.count_append, ih]
      simp [List.count_cons]
  simp only [length_trace, ne_eq, not_true_eq_false, if_false]
  rw [List.count_cons, List.count_append, key]
  simp [List.count_cons]

/-! ## Lemmas relating the code to the algorithm of the specification -/

/-- The loop from any state agrees with the steps of the specification over
the remaining indices: no store truncates, and both are undefined together. -/
theorem mismatch_loop_eq_foldlM (a b : List uint8_t) (len_a i m : Nat) (hm : m < 256) :
    (mismatch_loop a b len_a i m).1 =
      (List.range' i (len_a - i)).foldlM (spec_step a b) m := by
  induction i, m using mismatch_loop.induct a b len_a with
  | case1 i m hi hnone =>
    have hsub : len_a - i = (len_a - (i + 1)) + 1 := by omega
    rw [mismatch_loop, if_pos hi, hsub, List.range'_succ, List.foldlM_cons]
    simp [spec_step, hnone]
  | case2 i m hi x hx hnone =>
    have hsub : len_a - i = (len_a - (i + 1)) + 1 := by omega
    rw [mismatch_loop, if_pos hi, hsub, List.range'_succ, List.foldlM_cons]
    simp [spec_step, hx, hnone]
  | case3 i m hi x hx y hy ih =>
    have hsub : len_a - i = (len_a - (i + 1)) + 1 := by omega
    have hstore := accumulate_exact m x y hm
    have hm2 : (m ||| (x.val ^^^ y.val)) % 256 < 256 := Nat.mod_lt _ (by decide)
    have ih2 := ih hm2
    rw [mismatch_loop, if_pos hi, hsub, List.range'_succ, List.foldlM_cons]
    simp only [hx, hy, spec_step]
    rw [ih2, hstore]
    rfl
  | case4 i m hi =>
    have hsub : len_a - i = 0 := by omega
    rw [mismatch_loop_exit a b len_a i m hi, hsub]
    rfl

/-- The loop from the initial state computes the accumulation of the
specification, on every input. -/
theorem mismatch_loop_eq_spec_accumulate (a b : List uint8_t) (n : Nat) :
    (mismatch_loop a b n 0 0).1 = spec_accumulate a b n := by
  rw [mismatch_loop_eq_foldlM a b n 0 0 (by decide), Nat.sub_zero, spec_accumulate,
    List.range_eq_range']

/-- One more index: the accumulation over `[0, k + 1)` is the accumulation
over `[0, k)` followed by the step for index `k`. -/
theorem spec_accumulate_succ (a b : List uint8_t) (k : Nat) :
    spec_accumulate a b (k + 1) = (spec_accumulate a b k).bind (fun m => spec_step a b m k) := by
  unfold spec_accumulate
  rw [List.range_succ, List.foldlM_append]
  cases h : List.foldlM (spec_step a b) 0 (List.range k) with
  | none => rfl
  | some m =>
    simp only [Option.bind_eq_bind, Option.some_bind, List.foldlM_cons, List.foldlM_nil]
    cases spec_step a b m k <;> rfl

/-- The step of the specification at an index inside both sequences. -/
theorem spec_step_in_range (a b : List uint8_t) (m k : Nat) (ha : k < a.length)
    (hb : k < b.length) : spec_step a b m k = some (m ||| (a[k].val ^^^ b[k].val)) := by
  simp [spec_step, List.getElem?_eq_getElem ha, List.getElem?_eq_getElem hb]

/-- The accumulation over indices inside both sequences is defined and fits
in 8 bits. -/
theorem spec_accumulate_in_range (a b : List uint8_t) (k : Nat) (ha : k ≤ a.length)
    (hb : k ≤ b.length) : ∃ acc, spec_accumulate a b k = some acc ∧ acc < 256 := by
  induction k with
  | zero => exact ⟨0, rfl, by decide⟩
  | succ k ih =>
    obtain ⟨acc, hacc, h256⟩ := ih (by omega) (by omega)
    refine ⟨acc ||| (a[k].val ^^^ b[k].val), ?_, ?_⟩
    · rw [spec_accumulate_succ, hacc, Option.some_bind,
        spec_step_in_range a b acc k (by omega) (by omega)]
    · rw [← accumulate_exact acc a[k] b[k] h256]
      exact Nat.mod_lt _ (by decide)

/-- A defined accumulation fits in 8 bits. -/
theorem spec_accumulate_lt (a b : List uint8_t) (k r : Nat)
    (h : spec_accumulate a b k = some r) : r < 256 := by
  induction k generalizing r with
  | zero =>
    have : r = 0 := (Option.some.inj h).symm
    omega
  | succ k ih =>
    rw [spec_accumulate_succ] at h
    cases hk : spec_accumulate a b k with
    | none => rw [hk] at h; cases h
    | some m =>
      rw [hk, Option.some_bind] at h
      have hm := ih m hk
      unfold spec_step at h
      cases hx : a[k]? with
      | none => simp [hx] at h
      | some x =>
        cases hy : b[k]? with
        | none => simp [hx, hy] at h
        | some y =>
          simp only [hx, hy] at h
          have hr : m ||| (x.val ^^^ y.val) = r := Option.some.inj h
          rw [← hr, ← accumulate_exact m x y hm]
          exact Nat.mod_lt _ (by decide)

/-- On an 8-bit accumulator the collapse of the code, which reduces every
store modulo `2 ^ 8`, is the collapse of the specification. -/
theorem collapse_eq_spec_collapse (m : Nat) (hm : m < 256) : collapse m = spec_collapse m := by
  interval_cases m <;> rfl

/-- The return expression of line 30 is `(m & 1) XOR 1`. -/
theorem low_bit_clear_eq (m : Nat) : low_bit_clear m = (m &&& 1) ^^^ 1 := by
  unfold low_bit_clear
  rw [Nat.and_one_is_mod]
  rcases Nat.mod_two_eq_zero_or_one m with h | h <;> rw [h] <;> rfl

/-- The returned byte is 1 exactly for equal sequences. -/
theorem bytes_eq_ret_one_iff (x y : List uint8_t) :
    (Cryptography_constant_time_bytes_eq x x.length y y.length).ret = some 1 ↔ x = y := by
  by_cases h : x.length = y.length
  · rw [bytes_eq_ret_of_length_eq x y h]
    by_cases hxy : x = y <;> simp [hxy]
  · rw [bytes_eq_of_len_ne x _ y _ h]
    constructor
    · intro h01
      cases h01
    · intro hxy
      exact absurd (congrArg List.length hxy) h

/-- Reads of a concatenated trace. -/
theorem reads_a_append (s t : List Event) : reads_a (s ++ t) = reads_a s ++ reads_a t := by
  induction s with
  | nil => rfl
  | cons e s ih =>
    cases e <;> simp [reads_a, ih]

/-- The trace of a length reads `a` at `0, 1, ..., n - 1`, in this order. -/
theorem reads_a_length_trace (n : Nat) : reads_a (length_trace n n) = List.range n := by
  have key : ∀ k : Nat, reads_a ((List.range k).flatMap
      (fun i => [Event.loop_test true, Event.read_a i, Event.read_b i])) = List.range k := by
    intro k
    induction k with
    | zero => rfl
    | succ k ih =>
      rw [List.range_succ, List.flatMap_append, reads_a_append, ih]
      simp [reads_a]
  simp only [length_trace, ne_eq, not_true_eq_false, if_false]
  rw [show ∀ t, reads_a (Event.len_check false :: t) = reads_a t from fun t => rfl,
    reads_a_append, key]
  simp [reads_a]

/-- The trace of a length has three events per index and two more. -/
theorem length_length_trace (n : Nat) : (length_trace n n).length = 3 * n + 2 := by
  have key : ∀ k : Nat, ((List.range k).flatMap
      (fun i => [Event.loop_test true, Event.read_a i, Event.read_b i])).length = 3 * k := by
    intro k
    induction k with
    | zero => rfl
    | succ k ih =>
      rw [List.range_succ, List.flatMap_append, List.length_append, ih]
      simp
      omega
  simp only [length_trace, ne_eq, not_true_eq_false, if_false, List.length_cons,
    List.length_append, key, List.length_nil]

/-- The run of the loop to `n` passes through the state reached after the
first `k` indices: index `k` with the accumulation over `[0, k)`. -/
theorem mismatch_loop_split (a b : List uint8_t) (n k acc : Nat) (hk : k ≤ n)
    (hacc : spec_accumulate a b k = some acc) :
    (mismatch_loop a b n 0 0).1 = (mismatch_loop a b n k acc).1 := by
  have h256 := spec_accumulate_lt a b k acc hacc
  rw [mismatch_loop_eq_foldlM a b n 0 0 (by decide), mismatch_loop_eq_foldlM a b n k acc h256,
    Nat.sub_zero]
  have hsplit : List.range' 0 n = List.range' 0 k ++ List.range' k (n - k) := by
    have := List.range'_append 0 k (n - k) 1
    simp only [Nat.one_mul, Nat.zero_add] at this
    rw [this, Nat.sub_add_cancel hk]
  rw [hsplit, List.foldlM_append]
  have hpre : List.foldlM (spec_step a b) 0 (List.range' 0 k) = some acc := by
    rw [← List.range_eq_range']
    exact hacc
  rw [hpre]
  rfl

/-! ## The claims of the specification -/

/-- C1 (agreement with naive compare): on two byte sequences of one length
the call returns 1 exactly when they agree at every index, and 0 exactly when
they do not. -/
theorem bytes_eq_iff_pointwise (x y : List uint8_t) (h : x.length = y.length) :
    ((Cryptography_constant_time_bytes_eq x x.length y y.length).ret = some 1 ↔
        ∀ i (hx : i < x.length) (hy : i < y.length), x[i] = y[i]) ∧
    ((Cryptography_constant_time_bytes_eq x x.length y y.length).ret = some 0 ↔
        ¬ ∀ i (hx : i < x.length) (hy : i < y.length), x[i] = y[i]) := by
  have hret := bytes_eq_ret_of_length_eq x y h
  have hext : x = y ↔ ∀ i (hx : i < x.length) (hy : i < y.length), x[i] = y[i] := by
    constructor
    · rintro rfl i _ _
      rfl
    · exact List.ext_getElem h
  rw [hret, ← hext]
  by_cases hxy : x = y <;> simp [hxy]

/-- Witness of C1 on `00 01` against `00 02`. -/
theorem bytes_eq_iff_pointwise_witness :
    ((Cryptography_constant_time_bytes_eq [0, 1] [0, 1].length [0, 2] [0, 2].length).ret
          = some 1 ↔
        ∀ i (hx : i < ([0, 1] : List uint8_t).length) (hy : i < ([0, 2] : List uint8_t).length),
          ([0, 1] : List uint8_t).get ⟨i, hx⟩ = ([0, 2] : List uint8_t).get ⟨i, hy⟩) ∧
    ((Cryptography_constant_time_bytes_eq [0, 1] [0, 1].length [0, 2] [0, 2].length).ret
          = some 0 ↔
        ¬ ∀ i (hx : i < ([0, 1] : List uint8_t).length) (hy : i < ([0, 2] : List uint8_t).length),
          ([0, 1] : List uint8_t).get ⟨i, hx⟩ = ([0, 2] : List uint8_t).get ⟨i, hy⟩) :=
  bytes_eq_iff_pointwise [0, 1] [0, 2] rfl

/-- C2 (length discrimination): on two byte sequences of different lengths
the call returns 0, and any other two sequences of the same two lengths give
the same result. -/
theorem bytes_eq_length_discrimination (x y x' y' : List uint8_t)
    (hne : x.length ≠ y.length) (hx : x'.length = x.length) (hy : y'.length = y.length) :
    (Cryptography_constant_time_bytes_eq x x.length y y.length).ret = some 0 ∧
    (Cryptography_constant_time_bytes_eq x' x'.length y' y'.length).ret =
      (Cryptography_constant_time_bytes_eq x x.length y y.length).ret := by
  have hne' : x'.length ≠ y'.length := by rw [hx, hy]; exact hne
  rw [bytes_eq_of_len_ne x _ y _ hne, bytes_eq_of_len_ne x' _ y' _ hne']
  exact ⟨rfl, rfl⟩

/-- Witness of C2 on `00` against `00 01`, and `ff` against `fe fd`. -/
theorem bytes_eq_length_discrimination_witness :
    (Cryptography_constant_time_bytes_eq [0] [0].length [0, 1] [0, 1].length).ret = some 0 ∧
    (Cryptography_constant_time_bytes_eq [255] [255].length [254, 253] [254, 253].length).ret =
      (Cryptography_constant_time_bytes_eq [0] [0].length [0, 1] [0, 1].length).ret :=
  bytes_eq_length_discrimination [0] [0, 1] [255] [254, 253] (by decide) rfl rfl

/-- C3 (return encoding): whatever the buffers and lengths, a returned byte
is 0 or 1; and when both buffers hold at least the stated number of bytes the
call does return, 0 or 1. -/
theorem bytes_eq_ret_zero_or_one (a : List uint8_t) (len_a : Nat) (b : List uint8_t)
    (len_b : Nat) :
    (∀ v, (Cryptography_constant_time_bytes_eq a len_a b len_b).ret = some v → v = 0 ∨ v = 1) ∧
    (len_a ≤ a.length → len_b ≤ b.length →
      (Cryptography_constant_time_bytes_eq a len_a b len_b).ret = some 0 ∨
      (Cryptography_constant_time_bytes_eq a len_a b len_b).ret = some 1) := by
  constructor
  · intro v hv
    by_cases hlen : len_a = len_b
    · subst hlen
      unfold Cryptography_constant_time_bytes_eq at hv
      rw [if_neg (by simp)] at hv
      rcases hloop : mismatch_loop a b len_a 0 0 with ⟨_ | r, tr⟩
      · rw [hloop] at hv
        cases hv
      · rw [hloop] at hv
        have hv' : low_bit_clear (collapse r) = v := Option.some.inj hv
        rw [← hv']
        unfold low_bit_clear
        by_cases hbit : collapse r &&& 1 = 0
        · right; rw [if_pos hbit]
        · left; rw [if_neg hbit]
    · rw [bytes_eq_of_len_ne a len_a b len_b hlen] at hv
      left
      exact (Option.some.inj hv).symm
  · intro hla hlb
    by_cases hlen : len_a = len_b
    · subst hlen
      rcases (bytes_eq_in_range a len_a b hla hlb).2 with ⟨hret, _⟩ | ⟨hret, _⟩
      · right; exact hret
      · left; exact hret
    · left
      rw [bytes_eq_of_len_ne a len_a b len_b hlen]

/-- Witness of C3 on `00 01` against `00 02`, both of length 2. -/
theorem bytes_eq_ret_zero_or_one_witness :
    (2 ≤ ([0, 1] : List uint8_t).length ∧ 2 ≤ ([0, 2] : List uint8_t).length) ∧
    ((Cryptography_constant_time_bytes_eq [0, 1] 2 [0, 2] 2).ret = some 0 ∨
      (Cryptography_constant_time_bytes_eq [0, 1] 2 [0, 2] 2).ret = some 1) :=
  ⟨⟨by decide, by decide⟩,
    (bytes_eq_ret_zero_or_one [0, 1] 2 [0, 2] 2).2 (by decide) (by decide)⟩

/-- C4 (constant time): for four byte sequences of one length `n`, the trace
of the call on the first pair equals the trace on the second pair; it is the
trace `length_trace n n` computed from `n` alone, and it enters the loop body
exactly `n` times, so the loop never stops early on a mismatch. -/
theorem bytes_eq_trace_depends_on_length_only (n : Nat) (x y x' y' : List uint8_t)
    (hx : x.length = n) (hy : y.length = n) (hx' : x'.length = n) (hy' : y'.length = n) :
    (Cryptography_constant_time_bytes_eq x n y n).trace =
      (Cryptography_constant_time_bytes_eq x' n y' n).trace ∧
    (Cryptography_constant_time_bytes_eq x n y n).trace = length_trace n n ∧
    (Cryptography_constant_time_bytes_eq x n y n).trace.count (Event.loop_test true) = n := by
  have h1 := (bytes_eq_in_range x n y (Nat.le_of_eq hx.symm) (Nat.le_of_eq hy.symm)).1
  have h2 := (bytes_eq_in_range x' n y' (Nat.le_of_eq hx'.symm) (Nat.le_of_eq hy'.symm)).1
  refine ⟨by rw [h1, h2], h1, ?_⟩
  rw [h1]
  exact count_loop_test_length_trace n

/-- Witness of C4: `01 02` against `01 02` (equal) and `01 02` against
`ff 02` (different in the first byte) leave the same trace. -/
theorem bytes_eq_trace_depends_on_length_only_witness :
    (Cryptography_constant_time_bytes_eq [1, 2] 2 [1, 2] 2).trace =
      (Cryptography_constant_time_bytes_eq [1, 2] 2 [255, 2] 2).trace ∧
    (Cryptography_constant_time_bytes_eq [1, 2] 2 [1, 2] 2).trace = length_trace 2 2 ∧
    (Cryptography_constant_time_bytes_eq [1, 2] 2 [1, 2] 2).trace.count
      (Event.loop_test true) = 2 :=
  bytes_eq_trace_depends_on_length_only 2 [1, 2] [1, 2] [1, 2] [255, 2] rfl rfl rfl rfl

/-- C5 (single-bit sensitivity): if `y` is `x` with the byte at a position
`i < len(x)` replaced by `x[i] XOR b` for a non-zero 8-bit mask `b`, the call
on `x` and `y` returns 0. -/
theorem bytes_eq_single_bit_sensitivity (x y : List uint8_t) (i : Nat) (hi : i < x.length)
    (b : uint8_t) (hb0 : b.val ≠ 0) (yi : uint8_t) (hyi : yi.val = x[i].val ^^^ b.val)
    (hy : y = x.set i yi) :
    (Cryptography_constant_time_bytes_eq x x.length y y.length).ret = some 0 := by
  have hlen : x.length = y.length := by rw [hy, List.length_set]
  have hne : x ≠ y := by
    intro hxy
    have hiy : i < y.length := hlen ▸ hi
    have h1 : y[i] = yi := by
      subst hy
      simp
    have h2 : x[i] = y[i] := by
      subst hxy
      rfl
    have h3 : x[i].val = x[i].val ^^^ b.val := by
      rw [← hyi, ← h1, ← h2]
    have h4 : x[i].val ^^^ (x[i].val ^^^ b.val) = 0 := Nat.xor_eq_zero.mpr h3
    rw [← Nat.xor_assoc, Nat.xor_self, Nat.zero_xor] at h4
    exact hb0 h4
  rw [bytes_eq_ret_of_length_eq x y hlen, if_neg hne]

/-- Witness of C5: `0f f0` with mask `80` applied at position 1. -/
theorem bytes_eq_single_bit_sensitivity_witness :
    (Cryptography_constant_time_bytes_eq [0x0f, 0xf0] [0x0f, 0xf0].length
      [0x0f, 0x70] [0x0f, 0x70].length).ret = some 0 :=
  bytes_eq_single_bit_sensitivity [0x0f, 0xf0] [0x0f, 0x70] 1 (by decide) 0x80 (by decide)
    0x70 (by decide) (by decide)

/-- C6 (reflexivity): the call on a byte sequence and itself returns 1. -/
theorem bytes_eq_reflexive (x : List uint8_t) :
    (Cryptography_constant_time_bytes_eq x x.length x x.length).ret = some 1 := by
  rw [bytes_eq_ret_of_length_eq x x rfl, if_pos rfl]

/-- C7 (symmetry): exchanging the two arguments does not change the returned
byte, for sequences of equal or unequal lengths. -/
theorem bytes_eq_symmetric (x y : List uint8_t) :
    (Cryptography_constant_time_bytes_eq x x.length y y.length).ret =
      (Cryptography_constant_time_bytes_eq y y.length x x.length).ret := by
  by_cases h : x.length = y.length
  · rw [bytes_eq_ret_of_length_eq x y h, bytes_eq_ret_of_length_eq y x h.symm]
    by_cases hxy : x = y
    · rw [if_pos hxy, if_pos hxy.symm]
    · rw [if_neg hxy, if_neg (fun hyx => hxy hyx.symm)]
  · rw [bytes_eq_of_len_ne x _ y _ h, bytes_eq_of_len_ne y _ x _ (fun h' => h h'.symm)]

/-- C8 (empty inputs): two empty sequences compare equal (1); an empty
sequence and a non-empty one compare different (0) in either order. -/
theorem bytes_eq_empty :
    (Cryptography_constant_time_bytes_eq [] 0 [] 0).ret = some 1 ∧
    ∀ y : List uint8_t, y ≠ [] →
      (Cryptography_constant_time_bytes_eq [] 0 y y.length).ret = some 0 ∧
      (Cryptography_constant_time_bytes_eq y y.length [] 0).ret = some 0 := by
  refine ⟨bytes_eq_ret_of_length_eq [] [] rfl, ?_⟩
  intro y hy
  have hlen : 0 ≠ y.length := fun h => hy (List.length_eq_zero.mp h.symm)
  rw [bytes_eq_of_len_ne [] 0 y _ hlen, bytes_eq_of_len_ne y _ [] 0 (fun h => hlen h.symm)]
  exact ⟨rfl, rfl⟩

/-- Witness of C8 with the non-empty sequence `00`. -/
theorem bytes_eq_empty_witness :
    ([0] : List uint8_t) ≠ [] ∧
    (Cryptography_constant_time_bytes_eq [] 0 [0] [0].length).ret = some 0 ∧
    (Cryptography_constant_time_bytes_eq [0] [0].length [] 0).ret = some 0 :=
  ⟨by decide, bytes_eq_empty.2 [0] (by decide)⟩

/-- C9 (memory-read safety): when `a` holds exactly `len_a` bytes and `b`
exactly `len_b`, the call never takes the out-of-range branch (it returns a
byte), every index it reads in `a` or `b` is below both `len_a` and `len_b`,
and for `len_a != len_b` it reads no byte of either buffer. -/
theorem bytes_eq_reads_in_range (a : List uint8_t) (len_a : Nat) (b : List uint8_t)
    (len_b : Nat) (ha : a.length = len_a) (hb : b.length = len_b) :
    (Cryptography_constant_time_bytes_eq a len_a b len_b).ret ≠ none ∧
    (∀ i, Event.read_a i ∈ (Cryptography_constant_time_bytes_eq a len_a b len_b).trace ∨
          Event.read_b i ∈ (Cryptography_constant_time_bytes_eq a len_a b len_b).trace →
        i < len_a ∧ i < len_b) ∧
    (len_a ≠ len_b → ∀ i,
        Event.read_a i ∉ (Cryptography_constant_time_bytes_eq a len_a b len_b).trace ∧
        Event.read_b i ∉ (Cryptography_constant_time_bytes_eq a len_a b len_b).trace) := by
  by_cases hlen : len_a = len_b
  · subst hlen
    obtain ⟨htr, hret⟩ :=
      bytes_eq_in_range a len_a b (Nat.le_of_eq ha.symm) (Nat.le_of_eq hb.symm)
    refine ⟨?_, ?_, fun hne => absurd rfl hne⟩
    · rcases hret with ⟨hret, _⟩ | ⟨hret, _⟩ <;> rw [hret] <;> exact Option.some_ne_none _
    · intro i hi
      rw [htr] at hi
      exact ⟨read_mem_length_trace len_a i hi, read_mem_length_trace len_a i hi⟩
  · rw [bytes_eq_of_len_ne a len_a b len_b hlen]
    refine ⟨Option.some_ne_none _, ?_, ?_⟩
    · intro i hi
      simp at hi
    · intro _ i
      simp

/-- Witness of C9 on `01 02 03` and `01 02 04`, three readable bytes each. -/
theorem bytes_eq_reads_in_range_witness :
    (Cryptography_constant_time_bytes_eq [1, 2, 3] 3 [1, 2, 4] 3).ret ≠ none ∧
    (∀ i, Event.read_a i ∈ (Cryptography_constant_time_bytes_eq [1, 2, 3] 3 [1, 2, 4] 3).trace ∨
          Event.read_b i ∈ (Cryptography_constant_time_bytes_eq [1, 2, 3] 3 [1, 2, 4] 3).trace →
        i < 3 ∧ i < 3) ∧
    (3 ≠ 3 → ∀ i,
        Event.read_a i ∉ (Cryptography_constant_time_bytes_eq [1, 2, 3] 3 [1, 2, 4] 3).trace ∧
        Event.read_b i ∉ (Cryptography_constant_time_bytes_eq [1, 2, 3] 3 [1, 2, 4] 3).trace) :=
  bytes_eq_reads_in_range [1, 2, 3] 3 [1, 2, 4] 3 rfl rfl

/-- C10 (concrete scenarios): the eight rows of the table of the
specification, each with the lengths of its two sequences. -/
theorem bytes_eq_scenarios :
    (Cryptography_constant_time_bytes_eq [] 0 [] 0).ret = some 1 ∧
    (Cryptography_constant_time_bytes_eq [] 0 [0x00] 1).ret = some 0 ∧
    (Cryptography_constant_time_bytes_eq [0x00] 1 [] 0).ret = some 0 ∧
    (Cryptography_constant_time_bytes_eq [0x00, 0x01, 0x02, 0x03] 4
      [0x00, 0x01, 0x02, 0x03] 4).ret = some 1 ∧
    (Cryptography_constant_time_bytes_eq [0x00, 0x01, 0x02, 0x03] 4
      [0x00, 0x01, 0x02, 0x04] 4).ret = some 0 ∧
    (Cryptography_constant_time_bytes_eq [0xff, 0xff, 0xff, 0xff] 4
      [0xff, 0xff, 0xff, 0xfe] 4).ret = some 0 ∧
    (Cryptography_constant_time_bytes_eq [0xde, 0xad, 0xbe, 0xef] 4
      [0xde, 0xad, 0xbe, 0xef] 4).ret = some 1 ∧
    (Cryptography_constant_time_bytes_eq (List.replicate 1024 0xaa) 1024
      (List.replicate 1023 0xaa ++ [0xab]) 1024).ret = some 0 := by
  refine ⟨?_, ?_, ?_, ?_, ?_, ?_, ?_, ?_⟩
  · exact bytes_eq_ret_of_length_eq [] [] rfl
  · exact congrArg Outcome.ret (bytes_eq_of_len_ne [] 0 [0x00] 1 (by decide))
  · exact congrArg Outcome.ret (bytes_eq_of_len_ne [0x00] 1 [] 0 (by decide))
  · exact bytes_eq_ret_of_length_eq [0x00, 0x01, 0x02, 0x03] [0x00, 0x01, 0x02, 0x03] rfl
  · exact bytes_eq_ret_of_length_eq [0x00, 0x01, 0x02, 0x03] [0x00, 0x01, 0x02, 0x04] rfl
  · exact bytes_eq_ret_of_length_eq [0xff, 0xff, 0xff, 0xff] [0xff, 0xff, 0xff, 0xfe] rfl
  · exact bytes_eq_ret_of_length_eq [0xde, 0xad, 0xbe, 0xef] [0xde, 0xad, 0xbe, 0xef] rfl
  · have hlx : (List.replicate 1024 (0xaa : uint8_t)).length = 1024 := List.length_replicate _ _
    have hly : (List.replicate 1023 (0xaa : uint8_t) ++ [0xab]).length = 1024 := by
      rw [List.length_append, List.length_replicate]
      rfl
    have hne : List.replicate 1024 (0xaa : uint8_t) ≠ List.replicate 1023 0xaa ++ [0xab] := by
      rw [show (1024 : Nat) = 1023 + 1 from rfl, List.replicate_succ']
      intro h
      have h2 := List.append_cancel_left h
      exact absurd h2 (by decide)
    have h := bytes_eq_ret_of_length_eq (List.replicate 1024 (0xaa : uint8_t))
      (List.replicate 1023 0xaa ++ [0xab]) (hlx.trans hly.symm)
    rw [hlx, hly, if_neg hne] at h
    exact h

/-- C11 (accumulator collapse): for every 8-bit value `m`, after the three
updates of lines 26-28 bit 0 of the result is the logical OR of the eight
bits of `m`; that is, `result & 1` is 1 exactly when `m` is not 0. -/
theorem collapse_bit_zero_is_or_of_bits (m : uint8_t) :
    (collapse m.val).testBit 0 =
      (m.val.testBit 0 || m.val.testBit 1 || m.val.testBit 2 || m.val.testBit 3 ||
        m.val.testBit 4 || m.val.testBit 5 || m.val.testBit 6 || m.val.testBit 7) ∧
    (collapse m.val &&& 1 = 1 ↔ m.val ≠ 0) := by
  obtain ⟨m, hm⟩ := m
  simp only
  constructor
  · interval_cases m <;> rfl
  · interval_cases m <;> decide

/-- C12 (loop postcondition): for two byte sequences of one length `n`, the
loop of lines 21-23 started at index 0 with accumulator 0 ends with an 8-bit
accumulator that is 0 exactly when the sequences are identical, and that has
one of its eight bits set when they are not. -/
theorem mismatch_loop_postcondition (a b : List uint8_t) (h : a.length = b.length) :
    ∃ m, (mismatch_loop a b a.length 0 0).1 = some m ∧ m < 256 ∧
      (m = 0 ↔ a = b) ∧
      (a ≠ b → ∃ k, k < 8 ∧ m.testBit k = true) := by
  obtain ⟨m, hm, hm256, hm0⟩ :=
    mismatch_loop_ret a b a.length (Nat.le_refl _) (Nat.le_of_eq h) 0 0 (by decide)
  have hiff : m = 0 ↔ a = b := by
    rw [hm0]
    constructor
    · rintro ⟨_, hall⟩
      exact List.ext_getElem h (fun j hja hjb => hall j hja hjb (Nat.zero_le j) hja)
    · rintro rfl
      exact ⟨rfl, fun _ _ _ _ _ => rfl⟩
  refine ⟨m, hm, hm256, hiff, ?_⟩
  intro hne
  have hmne : m ≠ 0 := fun h0 => hne (hiff.mp h0)
  obtain ⟨k, hk⟩ := Nat.ne_zero_implies_bit_true hmne
  refine ⟨k, ?_, hk⟩
  by_contra hk8
  have hle : 8 ≤ k := Nat.le_of_not_lt hk8
  have hlt : m < 2 ^ k :=
    Nat.lt_of_lt_of_le hm256 (Nat.pow_le_pow_right (Nat.succ_pos 1) hle)
  rw [Nat.testBit_lt_two_pow hlt] at hk
  cases hk

/-- Witness of C12 on `01 02` against `01 03`. -/
theorem mismatch_loop_postcondition_witness :
    ∃ m, (mismatch_loop [1, 2] [1, 3] ([1, 2] : List uint8_t).length 0 0).1 = some m ∧
      m < 256 ∧ (m = 0 ↔ ([1, 2] : List uint8_t) = [1, 3]) ∧
      (([1, 2] : List uint8_t) ≠ [1, 3] → ∃ k, k < 8 ∧ m.testBit k = true) :=
  mismatch_loop_postcondition [1, 2] [1, 3] rfl

/-- C13 (refinement): the return expression of line 30, `(mismatch & 1) == 0`
converted to `uint8_t`, equals `(m & 1) XOR 1` of the specification for every
accumulator value, and the returned byte of the function equals the five-step
algorithm of the specification on every input. -/
theorem bytes_eq_refines_spec_algorithm :
    (∀ m : Nat, low_bit_clear m = (m &&& 1) ^^^ 1) ∧
    (∀ m : Nat, low_bit_clear m = if m &&& 1 = 0 then 1 else 0) ∧
    ∀ (a : List uint8_t) (len_a : Nat) (b : List uint8_t) (len_b : Nat),
      (Cryptography_constant_time_bytes_eq a len_a b len_b).ret =
        spec_constant_time_bytes_eq a len_a b len_b := by
  refine ⟨low_bit_clear_eq, ?_, ?_⟩
  · intro m
    unfold low_bit_clear
    by_cases h : m &&& 1 = 0
    · rw [if_pos h]
    · rw [if_neg h]
  · intro a len_a b len_b
    by_cases hlen : len_a = len_b
    · subst hlen
      have hacc := mismatch_loop_eq_spec_accumulate a b len_a
      unfold Cryptography_constant_time_bytes_eq spec_constant_time_bytes_eq
      rw [if_neg (by simp), if_neg (by simp), ← hacc]
      rcases hloop : mismatch_loop a b len_a 0 0 with ⟨_ | r, tr⟩
      · rfl
      · have hr : spec_accumulate a b len_a = some r := by rw [← hacc, hloop]
        have h256 := spec_accumulate_lt a b len_a r hr
        simp only [Option.map_some']
        rw [low_bit_clear_eq, collapse_eq_spec_collapse r h256]
    · rw [bytes_eq_of_len_ne a len_a b len_b hlen]
      unfold spec_constant_time_bytes_eq
      rw [if_pos hlen]

/-- C14 (termination and bounded work): on buffers of exactly the stated
lengths the call returns a byte (it never fails), and its trace is finite.
For `len_a = len_b` the loop body runs exactly `len_a` times, once for each
index `0, 1, ..., len_a - 1` in increasing order, and the trace has
`3 * len_a + 2` events; for `len_a != len_b` the body never runs. -/
theorem bytes_eq_terminates_with_bounded_work (a : List uint8_t) (len_a : Nat)
    (b : List uint8_t) (len_b : Nat) (ha : a.length = len_a) (hb : b.length = len_b) :
    (∃ v, (Cryptography_constant_time_bytes_eq a len_a b len_b).ret = some v) ∧
    (len_a = len_b →
      (Cryptography_constant_time_bytes_eq a len_a b len_b).trace.count
          (Event.loop_test true) = len_a ∧
      reads_a (Cryptography_constant_time_bytes_eq a len_a b len_b).trace = List.range len_a ∧
      (Cryptography_constant_time_bytes_eq a len_a b len_b).trace.length = 3 * len_a + 2) ∧
    (len_a ≠ len_b →
      (Cryptography_constant_time_bytes_eq a len_a b len_b).trace.count
          (Event.loop_test true) = 0 ∧
      reads_a (Cryptography_constant_time_bytes_eq a len_a b len_b).trace = [] ∧
      (Cryptography_constant_time_bytes_eq a len_a b len_b).trace.length = 1) := by
  by_cases hlen : len_a = len_b
  · subst hlen
    obtain ⟨htr, hret⟩ :=
      bytes_eq_in_range a len_a b (Nat.le_of_eq ha.symm) (Nat.le_of_eq hb.symm)
    refine ⟨?_, fun _ => ?_, fun hne => absurd rfl hne⟩
    · rcases hret with ⟨hret, _⟩ | ⟨hret, _⟩
      · exact ⟨1, hret⟩
      · exact ⟨0, hret⟩
    · rw [htr]
      exact ⟨count_loop_test_length_trace len_a, reads_a_length_trace len_a,
        length_length_trace len_a⟩
  · rw [bytes_eq_of_len_ne a len_a b len_b hlen]
    exact ⟨⟨0, rfl⟩, fun heq => absurd heq hlen, fun _ => ⟨rfl, rfl, rfl⟩⟩

/-- Witness of C14 on `01 02 03` and `01 02 04`, both of length 3. -/
theorem bytes_eq_terminates_with_bounded_work_witness :
    (∃ v, (Cryptography_constant_time_bytes_eq [1, 2, 3] 3 [1, 2, 4] 3).ret = some v) ∧
    (3 = 3 →
      (Cryptography_constant_time_bytes_eq [1, 2, 3] 3 [1, 2, 4] 3).trace.count
          (Event.loop_test true) = 3 ∧
      reads_a (Cryptography_constant_time_bytes_eq [1, 2, 3] 3 [1, 2, 4] 3).trace
          = List.range 3 ∧
      (Cryptography_constant_time_bytes_eq [1, 2, 3] 3 [1, 2, 4] 3).trace.length = 3 * 3 + 2) ∧
    (3 ≠ 3 →
      (Cryptography_constant_time_bytes_eq [1, 2, 3] 3 [1, 2, 4] 3).trace.count
          (Event.loop_test true) = 0 ∧
      reads_a (Cryptography_constant_time_bytes_eq [1, 2, 3] 3 [1, 2, 4] 3).trace = [] ∧
      (Cryptography_constant_time_bytes_eq [1, 2, 3] 3 [1, 2, 4] 3).trace.length = 1) :=
  bytes_eq_terminates_with_bounded_work [1, 2, 3] 3 [1, 2, 4] 3 rfl rfl

/-- C15 (transitivity): if the call returns 1 on `x, y` and on `y, z`, it
returns 1 on `x, z`; and "the call returns 1" is an equivalence relation on
byte sequences. -/
theorem bytes_eq_transitive (x y z : List uint8_t)
    (hxy : (Cryptography_constant_time_bytes_eq x x.length y y.length).ret = some 1)
    (hyz : (Cryptography_constant_time_bytes_eq y y.length z z.length).ret = some 1) :
    (Cryptography_constant_time_bytes_eq x x.length z z.length).ret = some 1 ∧
    Equivalence (fun u v : List uint8_t =>
      (Cryptography_constant_time_bytes_eq u u.length v v.length).ret = some 1) := by
  constructor
  · rw [bytes_eq_ret_one_iff] at hxy hyz ⊢
    exact hxy.trans hyz
  · refine ⟨fun u => ?_, fun {u v} huv => ?_, fun {u v w} huv hvw => ?_⟩
    · exact (bytes_eq_ret_one_iff u u).mpr rfl
    · exact (bytes_eq_ret_one_iff v u).mpr ((bytes_eq_ret_one_iff u v).mp huv).symm
    · exact (bytes_eq_ret_one_iff u w).mpr
        (((bytes_eq_ret_one_iff u v).mp huv).trans ((bytes_eq_ret_one_iff v w).mp hvw))

/-- Witness of C15 on three copies of `0a 0b`. -/
theorem bytes_eq_transitive_witness :
    (Cryptography_constant_time_bytes_eq [0x0a, 0x0b] [0x0a, 0x0b].length
      [0x0a, 0x0b] [0x0a, 0x0b].length).ret = some 1 ∧
    Equivalence (fun u v : List uint8_t =>
      (Cryptography_constant_time_bytes_eq u u.length v v.length).ret = some 1) :=
  bytes_eq_transitive [0x0a, 0x0b] [0x0a, 0x0b] [0x0a, 0x0b]
    ((bytes_eq_ret_one_iff [0x0a, 0x0b] [0x0a, 0x0b]).mpr rfl)
    ((bytes_eq_ret_one_iff [0x0a, 0x0b] [0x0a, 0x0b]).mpr rfl)

/-- C16 (concatenation): for `x1, y1` of one length and `x2, y2` of one
length, the byte returned on `x1 ++ x2` and `y1 ++ y2` is the bitwise AND of
the bytes returned on `x1, y1` and on `x2, y2`. -/
theorem bytes_eq_append (x1 y1 x2 y2 : List uint8_t) (h1 : x1.length = y1.length)
    (h2 : x2.length = y2.length) :
    ∃ v v1 v2,
      (Cryptography_constant_time_bytes_eq (x1 ++ x2) (x1 ++ x2).length
        (y1 ++ y2) (y1 ++ y2).length).ret = some v ∧
      (Cryptography_constant_time_bytes_eq x1 x1.length y1 y1.length).ret = some v1 ∧
      (Cryptography_constant_time_bytes_eq x2 x2.length y2 y2.length).ret = some v2 ∧
      v = v1 &&& v2 := by
  have h12 : (x1 ++ x2).length = (y1 ++ y2).length := by
    rw [List.length_append, List.length_append, h1, h2]
  refine ⟨_, _, _, bytes_eq_ret_of_length_eq _ _ h12, bytes_eq_ret_of_length_eq _ _ h1,
    bytes_eq_ret_of_length_eq _ _ h2, ?_⟩
  by_cases e1 : x1 = y1
  · by_cases e2 : x2 = y2
    · rw [if_pos e1, if_pos e2, if_pos (by rw [e1, e2])]
      rfl
    · have hne : x1 ++ x2 ≠ y1 ++ y2 := fun h => e2 (List.append_inj h h1).2
      rw [if_pos e1, if_neg e2, if_neg hne]
      rfl
  · have hne : x1 ++ x2 ≠ y1 ++ y2 := fun h => e1 (List.append_inj h h1).1
    rw [if_neg e1, if_neg hne]
    by_cases e2 : x2 = y2
    · rw [if_pos e2]
      rfl
    · rw [if_neg e2]
      rfl

/-- Witness of C16: a mismatch in the first segment (`01` against `02`) is
not cancelled by an equal second segment (`03` against `03`). -/
theorem bytes_eq_append_witness :
    ∃ v v1 v2,
      (Cryptography_constant_time_bytes_eq ([1] ++ [3]) ([1] ++ [3] : List uint8_t).length
        ([2] ++ [3]) ([2] ++ [3] : List uint8_t).length).ret = some v ∧
      (Cryptography_constant_time_bytes_eq [1] [1].length [2] [2].length).ret = some v1 ∧
      (Cryptography_constant_time_bytes_eq [3] [3].length [3] [3].length).ret = some v2 ∧
      v = v1 &&& v2 :=
  bytes_eq_append [1] [2] [3] [3] rfl rfl

/-- C17 (no truncation): every value stored into the 8-bit accumulator is
already in `0..255`, so the reduction modulo `2 ^ 8` changes nothing: for the
three collapse steps `m | (m >> k)`, `k` in `4, 2, 1`, and for every loop step
`mismatch | (a[k] ^ b[k])`.  After `k` loop rounds the accumulator is the
bitwise OR of `a[j] ^ b[j]` over `j < k`, and no step clears a bit. -/
theorem accumulator_never_truncates (a b : List uint8_t) (n : Nat)
    (hla : n ≤ a.length) (hlb : n ≤ b.length) :
    (∀ m k : Nat, m < 256 → (k = 4 ∨ k = 2 ∨ k = 1) →
        m ||| (m >>> k) < 256 ∧ (m ||| (m >>> k)) % 256 = m ||| (m >>> k) ∧
        ∀ bit, m.testBit bit = true → (m ||| (m >>> k)).testBit bit = true) ∧
    (∀ k, k ≤ n → ∃ acc,
        (mismatch_loop a b k 0 0).1 = some acc ∧
        (mismatch_loop a b n 0 0).1 = (mismatch_loop a b n k acc).1 ∧
        spec_accumulate a b k = some acc ∧ acc < 256 ∧
        ∀ x y : uint8_t, k < n → a[k]? = some x → b[k]? = some y →
          x.val ^^^ y.val < 256 ∧
          acc ||| (x.val ^^^ y.val) < 256 ∧
          (acc ||| (x.val ^^^ y.val)) % 256 = acc ||| (x.val ^^^ y.val) ∧
          (mismatch_loop a b (k + 1) 0 0).1 = some (acc ||| (x.val ^^^ y.val)) ∧
          ∀ bit, acc.testBit bit = true →
            (acc ||| (x.val ^^^ y.val)).testBit bit = true) := by
  constructor
  · intro m k hm hk
    have hshift : m >>> k < 2 ^ 8 := by
      rw [Nat.shiftRight_eq_div_pow]
      exact Nat.lt_of_le_of_lt (Nat.div_le_self m (2 ^ k)) hm
    have hlt : m ||| (m >>> k) < 256 := Nat.or_lt_two_pow (n := 8) hm hshift
    refine ⟨hlt, Nat.mod_eq_of_lt hlt, ?_⟩
    intro bit hbit
    rw [Nat.testBit_or, hbit]
    rfl
  · intro k hk
    obtain ⟨acc, hacc, h256⟩ := spec_accumulate_in_range a b k (by omega) (by omega)
    refine ⟨acc, ?_, mismatch_loop_split a b n k acc hk hacc, hacc, h256, ?_⟩
    · rw [mismatch_loop_eq_spec_accumulate, hacc]
    · intro x y hkn hx hy
      have hxy : x.val ^^^ y.val < 2 ^ 8 := Nat.xor_lt_two_pow x.isLt y.isLt
      have hstore := accumulate_exact acc x y h256
      have hlt : acc ||| (x.val ^^^ y.val) < 256 := Nat.or_lt_two_pow (n := 8) h256 hxy
      refine ⟨hxy, hlt, hstore, ?_, ?_⟩
      · rw [mismatch_loop_eq_spec_accumulate, spec_accumulate_succ, hacc, Option.some_bind]
        simp [spec_step, hx, hy]
      · intro bit hbit
        rw [Nat.testBit_or, hbit]
        rfl

/-- Witness of C17 on `f0 0f` against `00 00`, two rounds. -/
theorem accumulator_never_truncates_witness :
    (∀ m k : Nat, m < 256 → (k = 4 ∨ k = 2 ∨ k = 1) →
        m ||| (m >>> k) < 256 ∧ (m ||| (m >>> k)) % 256 = m ||| (m >>> k) ∧
        ∀ bit, m.testBit bit = true → (m ||| (m >>> k)).testBit bit = true) ∧
    (∀ k, k ≤ 2 → ∃ acc,
        (mismatch_loop [0xf0, 0x0f] [0x00, 0x00] k 0 0).1 = some acc ∧
        (mismatch_loop [0xf0, 0x0f] [0x00, 0x00] 2 0 0).1 =
          (mismatch_loop [0xf0, 0x0f] [0x00, 0x00] 2 k acc).1 ∧
        spec_accumulate [0xf0, 0x0f] [0x00, 0x00] k = some acc ∧ acc < 256 ∧
        ∀ x y : uint8_t, k < 2 → ([0xf0, 0x0f] : List uint8_t)[k]? = some x →
            ([0x00, 0x00] : List uint8_t)[k]? = some y →
          x.val ^^^ y.val < 256 ∧
          acc ||| (x.val ^^^ y.val) < 256 ∧
          (acc ||| (x.val ^^^ y.val)) % 256 = acc ||| (x.val ^^^ y.val) ∧
          (mismatch_loop [0xf0, 0x0f] [0x00, 0x00] (k + 1) 0 0).1 =
            some (acc ||| (x.val ^^^ y.val)) ∧
          ∀ bit, acc.testBit bit = true →
            (acc ||| (x.val ^^^ y.val)).testBit bit = true) :=
  accumulator_never_truncates [0xf0, 0x0f] [0x00, 0x00] 2 (by decide) (by decide)

end ConstantTime
